import Mathlib

/- Verification development for this repository's backfill protocol
(clustering/immediate_consistency/branch) and its thread-local storage
helpers (thread_local.hpp), as a shallow embedding in Lean 4. -/

namespace RethinkDB

/- ## Thread-local storage, pthread variant (src/thread_local.hpp, TLS_with_init)

The TLS_with_init macro generates, for a variable NAME of type TYPE with an
initial value, the functions TLS_intialize_NAME, TLS_get_NAME and
TLS_set_NAME over pthread keys.  We model the pthread-specific storage of
one such variable as a map from thread id to an optional slot: a slot is
none while pthread_getspecific would return NULL for that thread, and
some v once the thread's slot has been allocated and holds v. -/

/-- Storage of one TLS variable across threads: thread id to optional slot. -/
abbrev TLSMap (α : Type) : Type := Nat → Option α

/-- Embedding of TLS_intialize_NAME: if the calling thread's slot is NULL,
allocate it and store the macro's declared initial value; otherwise leave
everything unchanged. -/
def TLS_intialize {α : Type} (initial : α) (t : Nat) (s : TLSMap α) : TLSMap α :=
  match s t with
  | some _ => s
  | none => fun u => if u = t then some initial else s u

/-- Embedding of TLS_get_NAME: run TLS_intialize for the calling thread, then
read the thread's slot.  Returns the value read together with the storage
after the lazy initialization.  The none branch is unreachable because
TLS_intialize always fills the calling thread's slot. -/
def TLS_get {α : Type} (initial : α) (t : Nat) (s : TLSMap α) : α × TLSMap α :=
  let s1 := TLS_intialize initial t s
  (match s1 t with
   | some v => v
   | none => initial, s1)

/-- Embedding of TLS_set_NAME: run TLS_intialize for the calling thread, then
overwrite the thread's slot with val. -/
def TLS_set {α : Type} (initial : α) (t : Nat) (val : α) (s : TLSMap α) : TLSMap α :=
  let s1 := TLS_intialize initial t s
  fun u => if u = t then some val else s1 u

/- ## Thread-local storage, THREADED_COROUTINES variant

Under THREADED_COROUTINES the storage is a fixed-size container of
MAX_THREADS elements (std::vector<type>(MAX_THREADS, initial) for
TLS_with_init, a plain MAX_THREADS array for TLS), and both accessors index
it with get_thread_id().threadnum.  We model the container as a list and make
the out-of-bounds branch explicit as the none result. -/

/-- Embedding of the TLS_with_init THREADED_COROUTINES storage declaration
std::vector<type> TLS_NAME(MAX_THREADS, initial). -/
def TLS_vector (MAX_THREADS : Nat) {α : Type} (initial : α) : List α :=
  List.replicate MAX_THREADS initial

/-- Embedding of the THREADED_COROUTINES TLS_get_NAME: index the per-thread
container at threadnum.  none models the out-of-bounds access. -/
def TLS_coro_get {α : Type} (arr : List α) (threadnum : Nat) : Option α :=
  arr[threadnum]?

/-- Embedding of the THREADED_COROUTINES TLS_set_NAME: write the slot at
threadnum.  none models the out-of-bounds access. -/
def TLS_coro_set {α : Type} (arr : List α) (threadnum : Nat) (val : α) :
    Option (List α) :=
  if threadnum < arr.length then some (arr.set threadnum val) else none

/- ## Backfill protocol data model

Modelled from the spec: the implementation of backfillee(), the backfiller
responder, the region store view and the branch history manager is not part
of the given sources (src only declares backfillee() in backfillee.hpp), so
the protocol below follows the specification text: data model from its
section 3, branch history store from 4.1, region store view from 4.2,
backfiller responder from 4.3, backfillee orchestrator from 4.4, message
formats from section 6 and the error taxonomy from section 7. -/

abbrev Key : Type := Nat
abbrev Value : Type := Nat
abbrev Timestamp : Type := Nat
abbrev BranchId : Type := Nat

/-- Concrete region: a finite set of keys, given as a list. -/
abbrev Region : Type := List Key

/-- Modelled from the spec: a branch record of the branch history store,
with optional parent pointer, region, and validity interval. -/
structure branch_t where
  branch_id : BranchId
  parent : Option BranchId
  region : Region
  start_ts : Timestamp
  end_ts : Option Timestamp
deriving DecidableEq

/-- Modelled from the spec: the branch history store, an append-only arena of
branch records indexed by id. -/
abbrev branch_history_t : Type := List branch_t

/-- Modelled from the spec: get_branch(id), none when the id is absent. -/
def get_branch (bh : branch_history_t) (id : BranchId) : Option branch_t :=
  bh.find? (fun b => b.branch_id == id)

/-- Modelled from the spec: is_ancestor(candidate, of) walks parent pointers
from the second branch upward looking for the first; a branch counts as an
ancestor-or-equal of itself.  The fuel argument bounds the walk so that the
function is total even on a cyclic history. -/
def is_ancestor (bh : branch_history_t) : Nat → BranchId → BranchId → Bool
  | 0, _, _ => false
  | fuel + 1, cand, of_id =>
    if cand == of_id then true
    else
      match get_branch bh of_id with
      | none => false
      | some b =>
        match b.parent with
        | none => false
        | some p => is_ancestor bh fuel cand p

/-- Modelled from the spec: one replica's region store view, with point data
(value plus the timestamp of the write that produced it) and the metainfo
map (branch id plus timestamp per key). -/
structure store_view_t where
  data : Key → Option (Value × Timestamp)
  metainfo : Key → Option (BranchId × Timestamp)

/-- Modelled from the spec: a single timestamped point write with the
last-writer-wins-by-timestamp rule; a write whose timestamp does not exceed
the stored timestamp for the key is detected and skipped. -/
def point_write (st : store_view_t) (k : Key) (v : Value) (ts : Timestamp) :
    store_view_t :=
  match st.data k with
  | some (_, ts0) =>
    if ts0 < ts then
      { st with data := fun j => if j = k then some (v, ts) else st.data j }
    else st
  | none =>
    { st with data := fun j => if j = k then some (v, ts) else st.data j }

/-- Modelled from the spec: apply a data chunk's entry batch in order. -/
def write_entries (st : store_view_t)
    (entries : List (Key × Value × Timestamp)) : store_view_t :=
  entries.foldl (fun s e => point_write s e.1 e.2.1 e.2.2) st

/-- Modelled from the spec: set the metainfo entry of every key of a
sub-region to the given branch and timestamp. -/
def set_meta (st : store_view_t) (sub : Region) (b : BranchId)
    (ts : Timestamp) : store_view_t :=
  { st with
    metainfo := fun j => if j ∈ sub then some (b, ts) else st.metainfo j }

/-- Modelled from the spec: the chunk message, a tagged union of DataChunk,
MetaChunk, EndOfStream and Cancel (section 6). -/
inductive chunk_t where
  | dataChunk (sub : Region) (entries : List (Key × Value × Timestamp))
  | metaChunk (sub : Region) (branch : BranchId) (ts : Timestamp)
  | endOfStream
  | cancel
deriving DecidableEq

/-- Modelled from the spec: result of apply_chunk; outOfBounds is the
OutOfBoundsWrite contract violation of the region store view. -/
inductive apply_result_t where
  | ok (st : store_view_t)
  | outOfBounds

/-- Modelled from the spec: apply_chunk writes a chunk transactionally
against the session's authorized region.  A data chunk whose entries touch
any key outside the authorized region, or a meta chunk whose sub-region
leaves the authorized region, fails with OutOfBoundsWrite and changes
nothing. -/
def apply_chunk (authorized : Region) (st : store_view_t) (c : chunk_t) :
    apply_result_t :=
  match c with
  | .dataChunk _ entries =>
    if entries.all (fun e => e.1 ∈ authorized) then
      .ok (write_entries st entries)
    else .outOfBounds
  | .metaChunk sub b ts =>
    if sub.all (fun k => k ∈ authorized) then
      .ok (set_meta st sub b ts)
    else .outOfBounds
  | .endOfStream => .ok st
  | .cancel => .ok st

/-- Modelled from the spec: the backfillee tracks, per key, the latest
timestamp applied by the chunk stream, to detect out-of-order delivery. -/
abbrev applied_ts_t : Type := Key → Option Timestamp

/-- Modelled from the spec: a chunk is in order when none of its declared
timestamps regresses below a timestamp already applied for the same key. -/
def chunk_ts_ok (lastTs : applied_ts_t) (c : chunk_t) : Bool :=
  match c with
  | .dataChunk _ entries =>
    entries.all (fun e =>
      match lastTs e.1 with
      | none => true
      | some t0 => t0 ≤ e.2.2)
  | .metaChunk sub _ ts =>
    sub.all (fun k =>
      match lastTs k with
      | none => true
      | some t0 => t0 ≤ ts)
  | .endOfStream => true
  | .cancel => true

/-- Modelled from the spec: record the timestamps a chunk applied. -/
def update_applied_ts (lastTs : applied_ts_t) (c : chunk_t) : applied_ts_t :=
  match c with
  | .dataChunk _ entries =>
    entries.foldl (fun f e => fun k => if k = e.1 then some e.2.2 else f k)
      lastTs
  | .metaChunk sub _ ts => fun k => if k ∈ sub then some ts else lastTs k
  | .endOfStream => lastTs
  | .cancel => lastTs

/-- Modelled from the spec: states of the backfillee orchestrator state
machine (section 4.4). -/
inductive session_state_t where
  | init
  | negotiating
  | streaming
  | finalized
  | aborted
deriving DecidableEq

/-- Modelled from the spec: outcomes surfaced to the caller of backfillee(),
covering the error taxonomy of section 7. -/
inductive outcome_t where
  | finished
  | interrupted
  | resourceLost
  | backfillerUnavailable
  | chunkOrderViolation
  | outOfBoundsWrite
  | responderFailed
deriving DecidableEq

/-- Modelled from the spec: an observation made by the backfillee at one
suspension point: a chunk arrives, the interruptor is observed, or the
descriptor is retracted / the peer becomes unreachable. -/
inductive event_t where
  | chunk (c : chunk_t)
  | interrupt
  | peerLost
deriving DecidableEq

/-- Modelled from the spec: the backfiller business card published through
discovery (descriptor record of section 6). -/
structure backfiller_business_card_t where
  protocol_version : Nat
  request_mailbox_address : Nat
  region_hint : Region
deriving DecidableEq

/-- Modelled from the spec: the running state of one backfill session at the
backfillee, with the session id kept for progress queries. -/
structure run_state_t where
  session_id : Nat
  store : store_view_t
  lastTs : applied_ts_t
  state : session_state_t
  outcome : Option outcome_t

/-- Whether a session state is terminal. -/
def is_terminal (s : session_state_t) : Bool :=
  match s with
  | .finalized => true
  | .aborted => true
  | _ => false

/-- Modelled from the spec: one step of the backfillee orchestrator at a
suspension point.  Terminal states absorb every further event; the
interruptor aborts with Interrupted; peer loss aborts with ResourceLost;
the end-of-stream marker finalizes; a Cancel from the responder aborts with
ResponderFailed; an out-of-order chunk aborts with ChunkOrderViolation; an
out-of-bounds chunk aborts with OutOfBoundsWrite; otherwise the chunk is
applied and the per-key applied timestamps advance. -/
def backfillee_step (region : Region) (rs : run_state_t) (ev : event_t) :
    run_state_t :=
  if is_terminal rs.state then rs
  else
    match ev with
    | .interrupt =>
      { rs with state := .aborted, outcome := some .interrupted }
    | .peerLost =>
      { rs with state := .aborted, outcome := some .resourceLost }
    | .chunk c =>
      match c with
      | .endOfStream =>
        { rs with state := .finalized, outcome := some .finished }
      | .cancel =>
        { rs with state := .aborted, outcome := some .responderFailed }
      | _ =>
        if chunk_ts_ok rs.lastTs c then
          match apply_chunk region rs.store c with
          | .ok st1 =>
            { rs with store := st1, lastTs := update_applied_ts rs.lastTs c }
          | .outOfBounds =>
            { rs with state := .aborted, outcome := some .outOfBoundsWrite }
        else
          { rs with state := .aborted, outcome := some .chunkOrderViolation }

/-- Modelled from the spec: backfillee() with the declared signature shape of
backfillee.hpp.  Init resolves the descriptor; when the published descriptor
is absent the call fails immediately with BackfillerUnavailable, touching
nothing.  Otherwise the session negotiates (sends session id, region and the
metainfo snapshot; no store effect) and then streams, consuming events. -/
def backfillee_run (descriptor : Option backfiller_business_card_t)
    (region : Region) (store0 : store_view_t)
    (backfill_session_id : Nat) (events : List event_t) : run_state_t :=
  match descriptor with
  | none =>
    { session_id := backfill_session_id, store := store0,
      lastTs := fun _ => none, state := .aborted,
      outcome := some .backfillerUnavailable }
  | some _ =>
    events.foldl (backfillee_step region)
      { session_id := backfill_session_id, store := store0,
        lastTs := fun _ => none, state := .streaming, outcome := none }

/-- Modelled from the spec: continue a running session by consuming a list of
chunks at its suspension points. -/
def run_chunks (region : Region) (rs : run_state_t) (cs : List chunk_t) :
    run_state_t :=
  List.foldl (backfillee_step region) rs (cs.map event_t.chunk)

/- ## Backfiller responder (diffing and streaming) -/

/-- Modelled from the spec: one metainfo entry of the backfiller for the
requested region: a sub-region with its branch and timestamp. -/
structure backfiller_entry_t where
  sub : Region
  branch : BranchId
  ts : Timestamp
deriving DecidableEq

/-- Modelled from the spec: the single branch/timestamp version the peer's
metainfo snapshot reports for a sub-region, when the snapshot is uniform on
it; none when the peer reports nothing or disagrees within the sub-region. -/
def reported_version (snap : Key → Option (BranchId × Timestamp))
    (sub : Region) : Option (BranchId × Timestamp) :=
  match sub with
  | [] => none
  | k :: ks =>
    match snap k with
    | none => none
    | some v => if ks.all (fun j => snap j == some v) then some v else none

/-- Modelled from the spec: a sub-region needs transfer unless the peer is
already current or ahead, that is unless the backfiller's branch for the
sub-region is an ancestor-or-equal of the branch the peer reports (sections
4.3 and 8: skipped sub-regions are those whose peer version equals or
descends from the backfiller's). -/
def needs_transfer (bh : branch_history_t) (fuel : Nat)
    (localBranch : BranchId) (peer : Option (BranchId × Timestamp)) : Bool :=
  match peer with
  | none => true
  | some (pb, _) => ! is_ancestor bh fuel localBranch pb

/-- Modelled from the spec: the Diffing state of the backfiller responder:
keep exactly the metainfo entries whose sub-region needs transfer. -/
def compute_diff (bh : branch_history_t) (fuel : Nat)
    (entries : List backfiller_entry_t)
    (snap : Key → Option (BranchId × Timestamp)) :
    List backfiller_entry_t :=
  entries.filter (fun e => needs_transfer bh fuel e.branch
    (reported_version snap e.sub))

/-- Modelled from the spec: the chunks streamed for one diff entry: the value
chunk for the sub-region precedes the metainfo-delta chunk finalizing its
branch and timestamp. -/
def entry_chunks (dataOf : Region → List (Key × Value × Timestamp))
    (e : backfiller_entry_t) : List chunk_t :=
  [chunk_t.dataChunk e.sub (dataOf e.sub),
   chunk_t.metaChunk e.sub e.branch e.ts]

/-- Modelled from the spec: the Streaming and Finished states of the
backfiller responder: the per-entry chunk groups followed by the final
end-of-stream marker. -/
def make_stream (diff : List backfiller_entry_t)
    (dataOf : Region → List (Key × Value × Timestamp)) : List chunk_t :=
  (diff.map (entry_chunks dataOf)).flatten ++ [chunk_t.endOfStream]

/-- Modelled from the spec: a whole uninterrupted backfill session: the
backfillee sends its current metainfo snapshot, the backfiller diffs and
streams, and the backfillee consumes the stream. -/
def backfill_session (bh : branch_history_t) (fuel : Nat)
    (entries : List backfiller_entry_t)
    (dataOf : Region → List (Key × Value × Timestamp))
    (descriptor : Option backfiller_business_card_t) (region : Region)
    (store0 : store_view_t) (backfill_session_id : Nat) : run_state_t :=
  backfillee_run descriptor region store0 backfill_session_id
    ((make_stream (compute_diff bh fuel entries store0.metainfo) dataOf).map
      event_t.chunk)

/-- Whether a key lies in some sub-region of a list of backfiller entries. -/
def in_subs (d : List backfiller_entry_t) (k : Key) : Prop :=
  ∃ e, e ∈ d ∧ k ∈ e.sub

/-- Two backfiller entries with disjoint sub-regions. -/
def entry_disjoint (a b : backfiller_entry_t) : Prop :=
  ∀ k : Key, k ∈ a.sub → k ∈ b.sub → False

/-- Pairwise disjointness of the sub-regions of a metainfo entry list. -/
def entries_disjoint (d : List backfiller_entry_t) : Prop :=
  List.Pairwise entry_disjoint d

/-- Modelled from the spec: when mid is set and an entry remains beyond the
first m diff entries, the value chunk (but not yet the metainfo-delta
chunk) of entry m; otherwise nothing. -/
def mid_chunks (dataOf : Region → List (Key × Value × Timestamp))
    (d : List backfiller_entry_t) (m : Nat) (mid : Bool) : List chunk_t :=
  match mid, d.drop m with
  | true, e :: _ => [chunk_t.dataChunk e.sub (dataOf e.sub)]
  | _, _ => []

/-- Modelled from the spec: the chunks a session has emitted up to a chunk
boundary: all chunks of the first m diff entries, and, when mid is set and
an entry remains, additionally the value chunk (but not yet the
metainfo-delta chunk) of entry m. -/
def prefix_chunks (dataOf : Region → List (Key × Value × Timestamp))
    (d : List backfiller_entry_t) (m : Nat) (mid : Bool) : List chunk_t :=
  ((d.take m).map (entry_chunks dataOf)).flatten ++
    mid_chunks dataOf d m mid

/-- Modelled from the spec: a session in which the interruptor is observed at
the chunk boundary described by m and mid, after which the transport may
still present further events (all ignored once the session aborted). -/
def interrupted_session (bh : branch_history_t) (fuel : Nat)
    (entries : List backfiller_entry_t)
    (dataOf : Region → List (Key × Value × Timestamp))
    (descriptor : Option backfiller_business_card_t) (region : Region)
    (store0 : store_view_t) (backfill_session_id : Nat) (m : Nat)
    (mid : Bool) (rest : List event_t) : run_state_t :=
  backfillee_run descriptor region store0 backfill_session_id
    (((prefix_chunks dataOf
        (compute_diff bh fuel entries store0.metainfo) m mid).map
      event_t.chunk) ++ event_t.interrupt :: rest)

/-- A store with no data and no metainfo, used as a concrete test store. -/
def empty_store : store_view_t :=
  { data := fun _ => none, metainfo := fun _ => none }

/-- A concrete backfiller business card used in concrete test sessions. -/
def test_card : backfiller_business_card_t :=
  { protocol_version := 1, request_mailbox_address := 0, region_hint := [] }

/-- A concrete branch history: branch 2 is a child of branch 1. -/
def test_bh : branch_history_t :=
  [{ branch_id := 1, parent := none, region := [0, 1], start_ts := 0,
     end_ts := some 3 },
   { branch_id := 2, parent := some 1, region := [0, 1], start_ts := 3,
     end_ts := none }]

/-- A concrete backfiller metainfo: one entry covering keys 0 and 1 on
branch 1 at timestamp 5. -/
def test_entries : List backfiller_entry_t :=
  [{ sub := [0, 1], branch := 1, ts := 5 }]

/-- A concrete backfillee store that is ahead of test_entries: both keys
carry branch 2, a descendant of branch 1. -/
def caught_up_store : store_view_t :=
  { data := fun _ => none
    metainfo := fun k => if k ≤ 1 then some (2, 7) else none }

/-- Concrete chunk payloads for the test entries. -/
def test_dataOf : Region → List (Key × Value × Timestamp) :=
  fun s => if s = [0, 1] then [(0, 1, 1), (1, 2, 2)] else []

/- ## Theorems: thread-local storage -/

/-- C9: the functions generated by TLS_with_init behave as reads and writes
of a per-thread map: a TLS_get on thread t after a TLS_set of val on t
returns val; a TLS_set on t leaves the value TLS_get returns on any other
thread u unchanged; and a TLS_get on t before any TLS_set on t (slot still
NULL) returns the macro's declared initial value. -/
theorem TLS_with_init_map_semantics {α : Type} (initial : α) (t u : Nat)
    (val : α) (s : TLSMap α) (hut : u ≠ t) (h0 : s t = none) :
    (TLS_get initial t (TLS_set initial t val s)).1 = val ∧
    (TLS_get initial u (TLS_set initial t val s)).1 =
      (TLS_get initial u s).1 ∧
    (TLS_get initial t s).1 = initial := by
  refine ⟨?_, ?_, ?_⟩
  · cases h : s t <;>
      simp [TLS_get, TLS_set, TLS_intialize, h]
  · cases h : s t <;> cases hu : s u <;>
      simp [TLS_get, TLS_set, TLS_intialize, h, hu, hut, Ne.symm hut]
  · simp [TLS_get, TLS_intialize, h0]

/-- Witness for C9 at a concrete instance. -/
theorem TLS_with_init_map_semantics_witness :
    (TLS_get 7 0 (TLS_set 7 0 42 (fun _ => (none : Option Nat)))).1 = 42 ∧
    (TLS_get 7 1 (TLS_set 7 0 42 (fun _ => (none : Option Nat)))).1 =
      (TLS_get 7 1 (fun _ => (none : Option Nat))).1 ∧
    (TLS_get 7 0 (fun _ => (none : Option Nat))).1 = 7 :=
  TLS_with_init_map_semantics 7 0 1 42 (fun _ => none) (by decide) rfl

/-- C10: in the THREADED_COROUTINES variants, for every thread whose
threadnum is below MAX_THREADS, TLS_get and TLS_set access an in-bounds slot
of the MAX_THREADS-element storage (the out-of-bounds branch, modelled as
none, is unreachable), a set keeps the storage at MAX_THREADS elements, and
a get on the freshly initialized TLS_with_init storage reads the declared
initial value. -/
theorem TLS_threaded_coroutines_in_bounds {α : Type} (MAX_THREADS : Nat)
    (initial val : α) (arr : List α) (threadnum : Nat)
    (hlen : arr.length = MAX_THREADS) (ht : threadnum < MAX_THREADS) :
    (TLS_coro_get arr threadnum).isSome = true ∧
    (TLS_coro_set arr threadnum val).isSome = true ∧
    (∀ arr2, TLS_coro_set arr threadnum val = some arr2 →
      arr2.length = MAX_THREADS) ∧
    TLS_coro_get (TLS_vector MAX_THREADS initial) threadnum = some initial := by
  subst hlen
  refine ⟨?_, ?_, ?_, ?_⟩
  · simp [TLS_coro_get, List.getElem?_eq_getElem ht]
  · simp [TLS_coro_set, ht]
  · intro arr2 h2
    simp only [TLS_coro_set, if_pos ht, Option.some.injEq] at h2
    simp [← h2]
  · have hr : threadnum < (List.replicate arr.length initial).length := by
      simpa using ht
    rw [TLS_coro_get, TLS_vector, List.getElem?_eq_getElem hr,
      List.getElem_replicate]

/-- Witness for C10 at a concrete instance. -/
theorem TLS_threaded_coroutines_in_bounds_witness :
    (TLS_coro_get [5, 6, 7] 2).isSome = true ∧
    (TLS_coro_set [5, 6, 7] 2 4).isSome = true ∧
    (∀ arr2, TLS_coro_set [5, 6, 7] 2 4 = some arr2 →
      arr2.length = 3) ∧
    TLS_coro_get (TLS_vector 3 9) 2 = some 9 :=
  TLS_threaded_coroutines_in_bounds 3 9 4 [5, 6, 7] 2 rfl (by decide)

/- ## Helper lemmas about the store view -/

theorem point_write_data_ne (st : store_view_t) (k j : Key) (v : Value)
    (ts : Timestamp) (h : j ≠ k) :
    (point_write st k v ts).data j = st.data j := by
  unfold point_write
  cases st.data k with
  | none => simp [h]
  | some p =>
    obtain ⟨v0, t0⟩ := p
    by_cases hlt : t0 < ts <;> simp [hlt, h]

theorem point_write_metainfo (st : store_view_t) (k : Key) (v : Value)
    (ts : Timestamp) :
    (point_write st k v ts).metainfo = st.metainfo := by
  unfold point_write
  cases st.data k with
  | none => rfl
  | some p =>
    obtain ⟨v0, t0⟩ := p
    by_cases hlt : t0 < ts <;> simp [hlt]

theorem write_entries_data_out (entries : List (Key × Value × Timestamp)) :
    ∀ (st : store_view_t) (j : Key), (∀ en ∈ entries, en.1 ≠ j) →
    (write_entries st entries).data j = st.data j := by
  induction entries with
  | nil => intro st j _; rfl
  | cons en rest ih =>
    intro st j h
    have h1 : (write_entries st (en :: rest)) =
        write_entries (point_write st en.1 en.2.1 en.2.2) rest := rfl
    rw [h1, ih _ _ (fun x hx => h x (List.mem_cons_of_mem _ hx)),
      point_write_data_ne _ _ _ _ _ (Ne.symm (h en (List.mem_cons_self _ _)))]

theorem write_entries_metainfo (entries : List (Key × Value × Timestamp)) :
    ∀ (st : store_view_t),
    (write_entries st entries).metainfo = st.metainfo := by
  induction entries with
  | nil => intro st; rfl
  | cons en rest ih =>
    intro st
    have h1 : (write_entries st (en :: rest)) =
        write_entries (point_write st en.1 en.2.1 en.2.2) rest := rfl
    rw [h1, ih, point_write_metainfo]

theorem set_meta_data (st : store_view_t) (sub : Region) (b : BranchId)
    (ts : Timestamp) : (set_meta st sub b ts).data = st.data := rfl

theorem set_meta_metainfo_in (st : store_view_t) (sub : Region)
    (b : BranchId) (ts : Timestamp) (k : Key) (h : k ∈ sub) :
    (set_meta st sub b ts).metainfo k = some (b, ts) := by
  simp [set_meta, h]

theorem set_meta_metainfo_out (st : store_view_t) (sub : Region)
    (b : BranchId) (ts : Timestamp) (k : Key) (h : k ∉ sub) :
    (set_meta st sub b ts).metainfo k = st.metainfo k := by
  simp [set_meta, h]

/- ## Helper lemmas about applied-timestamp tracking -/

theorem update_applied_ts_data_out
    (entries : List (Key × Value × Timestamp)) :
    ∀ (lastTs : applied_ts_t) (sub : Region) (k : Key),
    (∀ en ∈ entries, en.1 ≠ k) →
    update_applied_ts lastTs (chunk_t.dataChunk sub entries) k = lastTs k := by
  induction entries with
  | nil => intro lastTs sub k _; rfl
  | cons en rest ih =>
    intro lastTs sub k h
    have h1 : update_applied_ts lastTs (chunk_t.dataChunk sub (en :: rest)) =
        update_applied_ts
          (fun j => if j = en.1 then some en.2.2 else lastTs j)
          (chunk_t.dataChunk sub rest) := rfl
    rw [h1, ih _ sub _ (fun x hx => h x (List.mem_cons_of_mem _ hx))]
    have hk : k ≠ en.1 := fun hh => h en (List.mem_cons_self _ _) hh.symm
    simp [hk]

theorem update_applied_ts_data_cases
    (entries : List (Key × Value × Timestamp)) :
    ∀ (lastTs : applied_ts_t) (sub : Region) (k : Key),
    update_applied_ts lastTs (chunk_t.dataChunk sub entries) k = lastTs k ∨
    ∃ en, en ∈ entries ∧
      update_applied_ts lastTs (chunk_t.dataChunk sub entries) k =
        some en.2.2 := by
  induction entries with
  | nil => intro lastTs sub k; exact Or.inl rfl
  | cons en rest ih =>
    intro lastTs sub k
    have h1 : update_applied_ts lastTs (chunk_t.dataChunk sub (en :: rest)) =
        update_applied_ts
          (fun j => if j = en.1 then some en.2.2 else lastTs j)
          (chunk_t.dataChunk sub rest) := rfl
    rw [h1]
    rcases ih (fun j => if j = en.1 then some en.2.2 else lastTs j) sub k with
      h | ⟨en2, hmem, heq⟩
    · rw [h]
      by_cases hk : k = en.1
      · exact Or.inr ⟨en, List.mem_cons_self _ _, by simp [hk]⟩
      · exact Or.inl (by simp [hk])
    · exact Or.inr ⟨en2, List.mem_cons_of_mem _ hmem, heq⟩

/- ## Helper lemmas about the backfillee state machine -/

theorem foldl_step_terminal (region : Region) (evs : List event_t) :
    ∀ (rs : run_state_t), is_terminal rs.state = true →
    List.foldl (backfillee_step region) rs evs = rs := by
  induction evs with
  | nil => intro rs _; rfl
  | cons ev rest ih =>
    intro rs h
    have h1 : backfillee_step region rs ev = rs := by
      unfold backfillee_step
      rw [h]
      rfl
    rw [List.foldl_cons, h1, ih rs h]

theorem backfillee_run_append (desc : backfiller_business_card_t)
    (region : Region) (store0 : store_view_t) (sid : Nat)
    (evs1 evs2 : List event_t) :
    backfillee_run (some desc) region store0 sid (evs1 ++ evs2) =
    List.foldl (backfillee_step region)
      (backfillee_run (some desc) region store0 sid evs1) evs2 := by
  simp [backfillee_run, List.foldl_append]

theorem step_not_terminal (region : Region) (rs : run_state_t)
    (ev : event_t) (h : rs.state = .streaming) :
    backfillee_step region rs ev =
      (match ev with
       | .interrupt =>
         { rs with state := .aborted, outcome := some .interrupted }
       | .peerLost =>
         { rs with state := .aborted, outcome := some .resourceLost }
       | .chunk c =>
         match c with
         | .endOfStream =>
           { rs with state := .finalized, outcome := some .finished }
         | .cancel =>
           { rs with state := .aborted, outcome := some .responderFailed }
         | _ =>
           if chunk_ts_ok rs.lastTs c then
             match apply_chunk region rs.store c with
             | .ok st1 =>
               { rs with
                   store := st1
                   lastTs := update_applied_ts rs.lastTs c }
             | .outOfBounds =>
               { rs with
                   state := .aborted
                   outcome := some .outOfBoundsWrite }
           else
             { rs with
                 state := .aborted
                 outcome := some .chunkOrderViolation }) := by
  unfold backfillee_step
  rw [h]
  rfl

/-- Effect of one data chunk arriving in the streaming state when every entry
stays inside the authorized region and no entry regresses an applied
timestamp. -/
theorem step_data_chunk (region : Region) (rs : run_state_t) (sub : Region)
    (ents : List (Key × Value × Timestamp))
    (hs : rs.state = .streaming)
    (hin : ∀ en ∈ ents, en.1 ∈ region)
    (hfresh : ∀ en ∈ ents, rs.lastTs en.1 = none) :
    backfillee_step region rs (event_t.chunk (chunk_t.dataChunk sub ents)) =
      { rs with
          store := write_entries rs.store ents
          lastTs := update_applied_ts rs.lastTs
            (chunk_t.dataChunk sub ents) } := by
  rw [step_not_terminal region rs _ hs]
  have hok : chunk_ts_ok rs.lastTs (chunk_t.dataChunk sub ents) = true := by
    unfold chunk_ts_ok
    rw [List.all_eq_true]
    intro en hen
    rw [hfresh en hen]
  have hap : apply_chunk region rs.store (chunk_t.dataChunk sub ents) =
      .ok (write_entries rs.store ents) := by
    unfold apply_chunk
    have : ents.all (fun e => decide (e.1 ∈ region)) = true := by
      rw [List.all_eq_true]
      intro en hen
      simpa using hin en hen
    simp only [this]
    rfl
  simp only [hok, hap]
  rfl

/-- Effect of one metainfo-delta chunk arriving in the streaming state when
the sub-region stays inside the authorized region and the chunk's timestamp
regresses no applied timestamp. -/
theorem step_meta_chunk (region : Region) (rs : run_state_t) (sub : Region)
    (b : BranchId) (ts : Timestamp)
    (hs : rs.state = .streaming)
    (hin : ∀ k ∈ sub, k ∈ region)
    (hts : ∀ k ∈ sub, ∀ t0, rs.lastTs k = some t0 → t0 ≤ ts) :
    backfillee_step region rs (event_t.chunk (chunk_t.metaChunk sub b ts)) =
      { rs with
          store := set_meta rs.store sub b ts
          lastTs := update_applied_ts rs.lastTs
            (chunk_t.metaChunk sub b ts) } := by
  rw [step_not_terminal region rs _ hs]
  have hok : chunk_ts_ok rs.lastTs (chunk_t.metaChunk sub b ts) = true := by
    unfold chunk_ts_ok
    rw [List.all_eq_true]
    intro k hk
    cases hl : rs.lastTs k with
    | none => rfl
    | some t0 => simpa using hts k hk t0 hl
  have hap : apply_chunk region rs.store (chunk_t.metaChunk sub b ts) =
      .ok (set_meta rs.store sub b ts) := by
    unfold apply_chunk
    have : sub.all (fun k => decide (k ∈ region)) = true := by
      rw [List.all_eq_true]
      intro k hk
      simpa using hin k hk
    simp only [this]
    rfl
  simp only [hok, hap]
  simp

/-- Effect of the chunk group of one diff entry on a streaming session:
state and outcome are preserved, the entry's sub-region gets the entry's
branch and timestamp recorded, and everything outside the sub-region is
untouched (data, metainfo and applied-timestamp tracking). -/
theorem run_entry_group (region : Region) (rs : run_state_t)
    (e : backfiller_entry_t)
    (dataOf : Region → List (Key × Value × Timestamp))
    (hs : rs.state = .streaming)
    (hsub : ∀ k ∈ e.sub, k ∈ region)
    (hdata : ∀ en ∈ dataOf e.sub, en.1 ∈ e.sub)
    (hts : ∀ en ∈ dataOf e.sub, en.2.2 ≤ e.ts)
    (hfresh : ∀ k ∈ e.sub, rs.lastTs k = none) :
    (run_chunks region rs (entry_chunks dataOf e)).state = .streaming ∧
    (run_chunks region rs (entry_chunks dataOf e)).outcome = rs.outcome ∧
    (∀ k ∈ e.sub,
      (run_chunks region rs (entry_chunks dataOf e)).store.metainfo k =
        some (e.branch, e.ts)) ∧
    (∀ k, k ∉ e.sub →
      (run_chunks region rs (entry_chunks dataOf e)).store.data k =
          rs.store.data k ∧
      (run_chunks region rs (entry_chunks dataOf e)).store.metainfo k =
          rs.store.metainfo k ∧
      (run_chunks region rs (entry_chunks dataOf e)).lastTs k =
          rs.lastTs k) := by
  simp only [run_chunks]
  have hin : ∀ en ∈ dataOf e.sub, en.1 ∈ region :=
    fun en hen => hsub en.1 (hdata en hen)
  have hfr : ∀ en ∈ dataOf e.sub, rs.lastTs en.1 = none :=
    fun en hen => hfresh en.1 (hdata en hen)
  have h1 := step_data_chunk region rs e.sub (dataOf e.sub) hs hin hfr
  have hunf : (entry_chunks dataOf e).map event_t.chunk =
      [event_t.chunk (chunk_t.dataChunk e.sub (dataOf e.sub)),
       event_t.chunk (chunk_t.metaChunk e.sub e.branch e.ts)] := rfl
  rw [hunf, List.foldl_cons, List.foldl_cons, List.foldl_nil, h1]
  set rs1 : run_state_t :=
    { rs with
        store := write_entries rs.store (dataOf e.sub)
        lastTs := update_applied_ts rs.lastTs
          (chunk_t.dataChunk e.sub (dataOf e.sub)) } with hrs1
  have hlast1 : rs1.lastTs =
      update_applied_ts rs.lastTs
        (chunk_t.dataChunk e.sub (dataOf e.sub)) := by
    rw [hrs1]
  have hts1 : ∀ k ∈ e.sub, ∀ t0, rs1.lastTs k = some t0 → t0 ≤ e.ts := by
    intro k hk t0 h0
    rw [hlast1] at h0
    rcases update_applied_ts_data_cases (dataOf e.sub) rs.lastTs e.sub k with
      hc | ⟨en, hen, hc⟩
    · rw [hc, hfresh k hk] at h0
      cases h0
    · rw [hc] at h0
      cases h0
      exact hts en hen
  have h2 := step_meta_chunk region rs1 e.sub e.branch e.ts
    (by rw [hrs1]; exact hs) hsub hts1
  rw [h2]
  refine ⟨hs, rfl, ?_, ?_⟩
  · intro k hk
    exact set_meta_metainfo_in _ _ _ _ k hk
  · intro k hk
    have hne : ∀ en ∈ dataOf e.sub, en.1 ≠ k :=
      fun en hen hh => hk (hh ▸ hdata en hen)
    refine ⟨?_, ?_, ?_⟩
    · show (set_meta rs1.store e.sub e.branch e.ts).data k = rs.store.data k
      rw [set_meta_data, hrs1]
      exact write_entries_data_out (dataOf e.sub) rs.store k hne
    · show (set_meta rs1.store e.sub e.branch e.ts).metainfo k =
        rs.store.metainfo k
      rw [set_meta_metainfo_out _ _ _ _ _ hk, hrs1]
      show (write_entries rs.store (dataOf e.sub)).metainfo k =
        rs.store.metainfo k
      rw [write_entries_metainfo]
    · show update_applied_ts rs1.lastTs
        (chunk_t.metaChunk e.sub e.branch e.ts) k = rs.lastTs k
      have hu : update_applied_ts rs1.lastTs
          (chunk_t.metaChunk e.sub e.branch e.ts) k =
          if k ∈ e.sub then some e.ts else rs1.lastTs k := rfl
      rw [hu, if_neg hk, hlast1]
      exact update_applied_ts_data_out (dataOf e.sub) rs.lastTs e.sub k hne

theorem run_chunks_append (region : Region) (rs : run_state_t)
    (cs1 cs2 : List chunk_t) :
    run_chunks region rs (cs1 ++ cs2) =
      run_chunks region (run_chunks region rs cs1) cs2 := by
  simp [run_chunks, List.foldl_append]

theorem in_subs_cons (e : backfiller_entry_t) (d : List backfiller_entry_t)
    (k : Key) : in_subs (e :: d) k ↔ k ∈ e.sub ∨ in_subs d k := by
  constructor
  · rintro ⟨x, hx, hk⟩
    rcases List.mem_cons.mp hx with h | h
    · exact Or.inl (h ▸ hk)
    · exact Or.inr ⟨x, h, hk⟩
  · rintro (h | ⟨x, hx, hk⟩)
    · exact ⟨e, List.mem_cons_self _ _, h⟩
    · exact ⟨x, List.mem_cons_of_mem _ hx, hk⟩

/-- Effect of the chunk groups of a list of pairwise-disjoint diff entries on
a streaming session: the session stays streaming, each entry's sub-region
ends at the entry's branch and timestamp, and keys in no entry's sub-region
are untouched. -/
theorem run_groups (region : Region)
    (dataOf : Region → List (Key × Value × Timestamp)) :
    ∀ (d : List backfiller_entry_t) (rs : run_state_t),
    rs.state = .streaming →
    (∀ e ∈ d, ∀ k ∈ e.sub, k ∈ region) →
    (∀ e ∈ d, ∀ en ∈ dataOf e.sub, en.1 ∈ e.sub) →
    (∀ e ∈ d, ∀ en ∈ dataOf e.sub, en.2.2 ≤ e.ts) →
    entries_disjoint d →
    (∀ k, in_subs d k → rs.lastTs k = none) →
    (run_chunks region rs
        (d.map (entry_chunks dataOf)).flatten).state = .streaming ∧
    (run_chunks region rs
        (d.map (entry_chunks dataOf)).flatten).outcome = rs.outcome ∧
    (∀ e ∈ d, ∀ k ∈ e.sub,
      (run_chunks region rs
        (d.map (entry_chunks dataOf)).flatten).store.metainfo k =
        some (e.branch, e.ts)) ∧
    (∀ k, ¬ in_subs d k →
      (run_chunks region rs
        (d.map (entry_chunks dataOf)).flatten).store.data k =
        rs.store.data k ∧
      (run_chunks region rs
        (d.map (entry_chunks dataOf)).flatten).store.metainfo k =
        rs.store.metainfo k ∧
      (run_chunks region rs
        (d.map (entry_chunks dataOf)).flatten).lastTs k = rs.lastTs k) := by
  intro d
  induction d with
  | nil =>
    intro rs hs _ _ _ _ _
    exact ⟨hs, rfl, fun e he => absurd he (List.not_mem_nil e),
      fun k _ => ⟨rfl, rfl, rfl⟩⟩
  | cons e d2 ih =>
    intro rs hs hreg hdata hts hdisj hfresh
    have hde : ∀ x ∈ d2, entry_disjoint e x :=
      (List.pairwise_cons.mp hdisj).1
    have hd2 : entries_disjoint d2 := (List.pairwise_cons.mp hdisj).2
    have hflat : ((e :: d2).map (entry_chunks dataOf)).flatten =
        entry_chunks dataOf e ++ (d2.map (entry_chunks dataOf)).flatten := by
      simp
    rw [hflat, run_chunks_append]
    obtain ⟨hg1, hg2, hg3, hg4⟩ := run_entry_group region rs e dataOf hs
      (hreg e (List.mem_cons_self _ _)) (hdata e (List.mem_cons_self _ _))
      (hts e (List.mem_cons_self _ _))
      (fun k hk => hfresh k ((in_subs_cons e d2 k).mpr (Or.inl hk)))
    have hfresh2 : ∀ k, in_subs d2 k →
        (run_chunks region rs (entry_chunks dataOf e)).lastTs k = none := by
      intro k hk
      obtain ⟨x, hx, hkx⟩ := hk
      have hke : k ∉ e.sub := fun hke => hde x hx k hke hkx
      rw [(hg4 k hke).2.2]
      exact hfresh k ((in_subs_cons e d2 k).mpr (Or.inr ⟨x, hx, hkx⟩))
    obtain ⟨hi1, hi2, hi3, hi4⟩ :=
      ih (run_chunks region rs (entry_chunks dataOf e)) hg1
        (fun x hx => hreg x (List.mem_cons_of_mem _ hx))
        (fun x hx => hdata x (List.mem_cons_of_mem _ hx))
        (fun x hx => hts x (List.mem_cons_of_mem _ hx))
        hd2 hfresh2
    refine ⟨hi1, hi2.trans hg2, ?_, ?_⟩
    · intro x hx k hk
      rcases List.mem_cons.mp hx with hxe | hxd
      · subst hxe
        have hnd2 : ¬ in_subs d2 k := by
          rintro ⟨y, hy, hky⟩
          exact hde y hy k hk hky
        rw [(hi4 k hnd2).2.1]
        exact hg3 k hk
      · exact hi3 x hxd k hk
    · intro k hk
      have hk1 : k ∉ e.sub :=
        fun h => hk ((in_subs_cons e d2 k).mpr (Or.inl h))
      have hk2 : ¬ in_subs d2 k :=
        fun h => hk ((in_subs_cons e d2 k).mpr (Or.inr h))
      obtain ⟨ha, hb, hc⟩ := hi4 k hk2
      obtain ⟨hd, he2, hf⟩ := hg4 k hk1
      exact ⟨ha.trans hd, hb.trans he2, hc.trans hf⟩

/- ## Helper lemmas about branch history and diffing -/

theorem is_ancestor_refl (bh : branch_history_t) (fuel : Nat)
    (h : 0 < fuel) (b : BranchId) : is_ancestor bh fuel b b = true := by
  cases fuel with
  | zero => cases h
  | succ n => simp [is_ancestor]

theorem reported_version_eq (snap : Key → Option (BranchId × Timestamp))
    (sub : Region) (pb : BranchId) (pts : Timestamp)
    (h : reported_version snap sub = some (pb, pts)) :
    ∀ k ∈ sub, snap k = some (pb, pts) := by
  intro k hk
  cases sub with
  | nil => cases hk
  | cons k0 ks =>
    cases h0 : snap k0 with
    | none =>
      simp only [reported_version, h0] at h
      cases h
    | some v =>
      simp only [reported_version, h0] at h
      by_cases hall : ks.all (fun j => snap j == some v) = true
      · rw [if_pos hall] at h
        cases h
        rcases List.mem_cons.mp hk with hke | hkm
        · exact hke ▸ h0
        · have := List.all_eq_true.mp hall k hkm
          exact eq_of_beq this
      · rw [if_neg hall] at h
        cases h

theorem needs_transfer_false (bh : branch_history_t) (fuel : Nat)
    (lb : BranchId) (peer : Option (BranchId × Timestamp))
    (h : needs_transfer bh fuel lb peer = false) :
    ∃ pb pts, peer = some (pb, pts) ∧ is_ancestor bh fuel lb pb = true := by
  cases peer with
  | none => cases h
  | some v =>
    obtain ⟨pb, pts⟩ := v
    refine ⟨pb, pts, rfl, ?_⟩
    unfold needs_transfer at h
    simpa using h

theorem entries_disjoint_unique (d : List backfiller_entry_t)
    (hd : entries_disjoint d) (a b : backfiller_entry_t)
    (ha : a ∈ d) (hb : b ∈ d) (k : Key)
    (hka : k ∈ a.sub) (hkb : k ∈ b.sub) : a = b := by
  induction d with
  | nil => cases ha
  | cons e t ih =>
    have hde : ∀ x ∈ t, entry_disjoint e x := (List.pairwise_cons.mp hd).1
    have hdt : entries_disjoint t := (List.pairwise_cons.mp hd).2
    rcases List.mem_cons.mp ha with hae | hat <;>
      rcases List.mem_cons.mp hb with hbe | hbt
    · exact hae.trans hbe.symm
    · exact absurd (hde b hbt k (hae ▸ hka) hkb) not_false
    · exact absurd (hde a hat k (hbe ▸ hkb) hka) not_false
    · exact ih hdt hat hbt

/- ## Frame lemma: no write outside the requested region -/

theorem step_outside_region (region : Region) (rs : run_state_t)
    (ev : event_t) (k : Key) (hk : k ∉ region) :
    (backfillee_step region rs ev).store.data k = rs.store.data k ∧
    (backfillee_step region rs ev).store.metainfo k =
      rs.store.metainfo k := by
  unfold backfillee_step
  split
  · exact ⟨rfl, rfl⟩
  · cases ev with
    | interrupt => exact ⟨rfl, rfl⟩
    | peerLost => exact ⟨rfl, rfl⟩
    | chunk c =>
      cases c with
      | endOfStream => exact ⟨rfl, rfl⟩
      | cancel => exact ⟨rfl, rfl⟩
      | dataChunk sub ents =>
        dsimp only
        split
        · unfold apply_chunk
          dsimp only
          split
          next st1 heq =>
            split at heq
            next hall =>
              cases heq
              have hne : ∀ en ∈ ents, en.1 ≠ k := by
                intro en hen hh
                have := of_decide_eq_true (List.all_eq_true.mp hall en hen)
                exact hk (hh ▸ this)
              exact ⟨write_entries_data_out ents rs.store k hne,
                congrFun (write_entries_metainfo ents rs.store) k⟩
            next => cases heq
          next heq => exact ⟨rfl, rfl⟩
        · exact ⟨rfl, rfl⟩
      | metaChunk sub b ts =>
        dsimp only
        split
        · unfold apply_chunk
          dsimp only
          split
          next st1 heq =>
            split at heq
            next hall =>
              cases heq
              have hks : k ∉ sub := by
                intro hin
                have := of_decide_eq_true (List.all_eq_true.mp hall k hin)
                exact hk this
              exact ⟨rfl, set_meta_metainfo_out rs.store sub b ts k hks⟩
            next => cases heq
          next heq => exact ⟨rfl, rfl⟩
        · exact ⟨rfl, rfl⟩

theorem foldl_outside_region (region : Region) (k : Key) (hk : k ∉ region)
    (evs : List event_t) : ∀ (rs : run_state_t),
    (List.foldl (backfillee_step region) rs evs).store.data k =
      rs.store.data k ∧
    (List.foldl (backfillee_step region) rs evs).store.metainfo k =
      rs.store.metainfo k := by
  induction evs with
  | nil => intro rs; exact ⟨rfl, rfl⟩
  | cons ev rest ih =>
    intro rs
    obtain ⟨h1, h2⟩ := step_outside_region region rs ev k hk
    obtain ⟨h3, h4⟩ := ih (backfillee_step region rs ev)
    rw [List.foldl_cons]
    exact ⟨h3.trans h1, h4.trans h2⟩

/-- Abort helper: when a step from a streaming state yields a terminal state,
the session result is that state, whether or not further events follow. -/
theorem run_cons_abort (desc : backfiller_business_card_t) (region : Region)
    (store0 : store_view_t) (sid : Nat) (pre rest : List event_t)
    (ev : event_t) (rs2 : run_state_t)
    (hstep : backfillee_step region
      (backfillee_run (some desc) region store0 sid pre) ev = rs2)
    (hterm : is_terminal rs2.state = true) :
    backfillee_run (some desc) region store0 sid (pre ++ ev :: rest) = rs2 ∧
    backfillee_run (some desc) region store0 sid (pre ++ [ev]) = rs2 := by
  constructor
  · rw [backfillee_run_append, List.foldl_cons, hstep,
      foldl_step_terminal region rest rs2 hterm]
  · rw [backfillee_run_append, List.foldl_cons, hstep, List.foldl_nil]

/-- Effect of the optional mid-boundary value chunk: the session stays
streaming, no metainfo changes, and only keys of the pending entry's
sub-region may change their data. -/
theorem run_mid_chunks (region : Region)
    (dataOf : Region → List (Key × Value × Timestamp))
    (d : List backfiller_entry_t) (m : Nat) (mid : Bool)
    (rs : run_state_t) (hs : rs.state = .streaming)
    (hreg : ∀ e ∈ d, ∀ k ∈ e.sub, k ∈ region)
    (hdata : ∀ e ∈ d, ∀ en ∈ dataOf e.sub, en.1 ∈ e.sub)
    (hfresh : ∀ e ∈ d.drop m, ∀ k ∈ e.sub, rs.lastTs k = none) :
    (run_chunks region rs (mid_chunks dataOf d m mid)).state = .streaming ∧
    (run_chunks region rs (mid_chunks dataOf d m mid)).outcome =
      rs.outcome ∧
    (run_chunks region rs (mid_chunks dataOf d m mid)).store.metainfo =
      rs.store.metainfo ∧
    (∀ k, (mid = true → ∀ e ∈ (d.drop m).take 1, k ∉ e.sub) →
      (run_chunks region rs (mid_chunks dataOf d m mid)).store.data k =
        rs.store.data k) := by
  cases hdm : d.drop m with
  | nil =>
    have hmc : mid_chunks dataOf d m mid = [] := by
      unfold mid_chunks
      rw [hdm]
      cases mid <;> rfl
    rw [hmc]
    exact ⟨hs, rfl, rfl, fun k _ => rfl⟩
  | cons e0 tl =>
    cases mid with
    | false =>
      have hmc : mid_chunks dataOf d m false = [] := by
        unfold mid_chunks
        rw [hdm]
      rw [hmc]
      exact ⟨hs, rfl, rfl, fun k _ => rfl⟩
    | true =>
      have hmc : mid_chunks dataOf d m true =
          [chunk_t.dataChunk e0.sub (dataOf e0.sub)] := by
        unfold mid_chunks
        rw [hdm]
      have he0 : e0 ∈ d :=
        List.drop_subset m d (hdm ▸ List.mem_cons_self e0 tl)
      have hin : ∀ en ∈ dataOf e0.sub, en.1 ∈ region :=
        fun en hen => hreg e0 he0 en.1 (hdata e0 he0 en hen)
      have hfr : ∀ en ∈ dataOf e0.sub, rs.lastTs en.1 = none := by
        intro en hen
        exact hfresh e0 (hdm ▸ List.mem_cons_self e0 tl) en.1
          (hdata e0 he0 en hen)
      have hrun : run_chunks region rs (mid_chunks dataOf d m true) =
          { rs with
              store := write_entries rs.store (dataOf e0.sub)
              lastTs := update_applied_ts rs.lastTs
                (chunk_t.dataChunk e0.sub (dataOf e0.sub)) } := by
        rw [hmc]
        show List.foldl (backfillee_step region) rs
          [event_t.chunk (chunk_t.dataChunk e0.sub (dataOf e0.sub))] = _
        rw [List.foldl_cons, List.foldl_nil,
          step_data_chunk region rs e0.sub (dataOf e0.sub) hs hin hfr]
      rw [hrun]
      refine ⟨hs, rfl, write_entries_metainfo (dataOf e0.sub) rs.store, ?_⟩
      intro k hk
      have hk0 : k ∉ e0.sub := hk rfl e0 (by simp)
      have hne : ∀ en ∈ dataOf e0.sub, en.1 ≠ k :=
        fun en hen hh => hk0 (hh ▸ hdata e0 he0 en hen)
      exact write_entries_data_out (dataOf e0.sub) rs.store k hne

/- ## Theorems: backfill protocol claims -/

/-- C6: when the published backfiller descriptor cannot be resolved at Init,
backfillee() fails immediately with BackfillerUnavailable (aborted state),
without consuming any event, applying any chunk, or modifying the store view
or metainfo — the returned store is exactly the input store, whatever events
would have followed.  (spec-modelled: the backfillee orchestrator is not in
src, modelled from spec sections 4.4, 6 and 7.) -/
theorem backfillee_unavailable (region : Region) (store0 : store_view_t)
    (sid : Nat) (events : List event_t) :
    (backfillee_run none region store0 sid events).outcome =
      some .backfillerUnavailable ∧
    (backfillee_run none region store0 sid events).state = .aborted ∧
    (backfillee_run none region store0 sid events).store = store0 :=
  ⟨rfl, rfl, rfl⟩

/-- C2: no-overshoot: whatever chunks arrive and however the session ends,
no key outside the requested region changes its stored value or its
metainfo entry.  (spec-modelled: the backfillee orchestrator and store view
are not in src, modelled from spec sections 4.2, 4.4 and 8.) -/
theorem backfillee_no_overshoot
    (descriptor : Option backfiller_business_card_t) (region : Region)
    (store0 : store_view_t) (sid : Nat) (events : List event_t) (k : Key)
    (hk : k ∉ region) :
    (backfillee_run descriptor region store0 sid events).store.data k =
      store0.data k ∧
    (backfillee_run descriptor region store0 sid events).store.metainfo k =
      store0.metainfo k := by
  cases descriptor with
  | none => exact ⟨rfl, rfl⟩
  | some d => exact foldl_outside_region region k hk events _

/-- Witness for C2 at a concrete session. -/
theorem backfillee_no_overshoot_witness :
    (backfillee_run (some test_card) [0] empty_store 0
        [event_t.chunk (chunk_t.dataChunk [0] [(0, 1, 1)]),
         event_t.interrupt]).store.data 5 = empty_store.data 5 ∧
    (backfillee_run (some test_card) [0] empty_store 0
        [event_t.chunk (chunk_t.dataChunk [0] [(0, 1, 1)]),
         event_t.interrupt]).store.metainfo 5 = empty_store.metainfo 5 :=
  backfillee_no_overshoot (some test_card) [0] empty_store 0
    [event_t.chunk (chunk_t.dataChunk [0] [(0, 1, 1)]),
     event_t.interrupt] 5 (by decide)

/-- C5: if the descriptor is retracted or the peer becomes unreachable while
the session is streaming, the session aborts with ResourceLost, an outcome
distinct from Interrupted, leaving the store at its pre-loss contents; a
caller may then start a fresh session against another backfiller.
(spec-modelled: the backfillee orchestrator is not in src, modelled from
spec sections 4.4 and 7.) -/
theorem backfillee_resource_lost (desc : backfiller_business_card_t)
    (region : Region) (store0 : store_view_t) (sid : Nat)
    (pre rest : List event_t)
    (hs : (backfillee_run (some desc) region store0 sid pre).state =
      .streaming) :
    (backfillee_run (some desc) region store0 sid
      (pre ++ event_t.peerLost :: rest)).outcome = some .resourceLost ∧
    (backfillee_run (some desc) region store0 sid
      (pre ++ event_t.peerLost :: rest)).state = .aborted ∧
    (backfillee_run (some desc) region store0 sid
      (pre ++ event_t.peerLost :: rest)).outcome ≠ some .interrupted ∧
    (backfillee_run (some desc) region store0 sid
      (pre ++ event_t.peerLost :: rest)).store =
      (backfillee_run (some desc) region store0 sid pre).store := by
  have hstep : backfillee_step region
      (backfillee_run (some desc) region store0 sid pre) event_t.peerLost =
      { backfillee_run (some desc) region store0 sid pre with
          state := .aborted
          outcome := some .resourceLost } := by
    rw [step_not_terminal region _ _ hs]
  obtain ⟨h1, _⟩ := run_cons_abort desc region store0 sid pre rest
    event_t.peerLost _ hstep rfl
  rw [h1]
  exact ⟨rfl, rfl, by simp, rfl⟩

/-- Witness for C5 at a concrete session. -/
theorem backfillee_resource_lost_witness :
    (backfillee_run (some test_card) [0] empty_store 0
      ([] ++ event_t.peerLost :: [])).outcome = some .resourceLost ∧
    (backfillee_run (some test_card) [0] empty_store 0
      ([] ++ event_t.peerLost :: [])).state = .aborted ∧
    (backfillee_run (some test_card) [0] empty_store 0
      ([] ++ event_t.peerLost :: [])).outcome ≠ some .interrupted ∧
    (backfillee_run (some test_card) [0] empty_store 0
      ([] ++ event_t.peerLost :: [])).store =
      (backfillee_run (some test_card) [0] empty_store 0 []).store :=
  backfillee_resource_lost test_card [0] empty_store 0 [] [] rfl

/-- C4: a contract violation — an out-of-order chunk detected by the
backfillee (ChunkOrderViolation) or a write outside the authorized region
detected by the store view (OutOfBoundsWrite) — is not caught-and-continued:
the session terminates at once (every later event is ignored, no retry), in
the aborted state, and the violation surfaces to the caller as a defect
signal distinct from Interrupted and from ResourceLost.  (spec-modelled:
the backfillee orchestrator and store view are not in src, modelled from
spec sections 4.2, 4.4 and 7.) -/
theorem backfillee_contract_violation (desc : backfiller_business_card_t)
    (region : Region) (store0 : store_view_t) (sid : Nat)
    (pre rest : List event_t) (c : chunk_t)
    (hs : (backfillee_run (some desc) region store0 sid pre).state =
      .streaming) :
    (chunk_ts_ok
        (backfillee_run (some desc) region store0 sid pre).lastTs c =
        false →
      (backfillee_run (some desc) region store0 sid
        (pre ++ event_t.chunk c :: rest)).outcome =
        some .chunkOrderViolation ∧
      (backfillee_run (some desc) region store0 sid
        (pre ++ event_t.chunk c :: rest)).state = .aborted ∧
      (backfillee_run (some desc) region store0 sid
        (pre ++ event_t.chunk c :: rest)).outcome ≠ some .interrupted ∧
      (backfillee_run (some desc) region store0 sid
        (pre ++ event_t.chunk c :: rest)).outcome ≠ some .resourceLost ∧
      backfillee_run (some desc) region store0 sid
        (pre ++ event_t.chunk c :: rest) =
        backfillee_run (some desc) region store0 sid
          (pre ++ [event_t.chunk c])) ∧
    (chunk_ts_ok
        (backfillee_run (some desc) region store0 sid pre).lastTs c =
        true →
      apply_chunk region
        (backfillee_run (some desc) region store0 sid pre).store c =
        .outOfBounds →
      (backfillee_run (some desc) region store0 sid
        (pre ++ event_t.chunk c :: rest)).outcome =
        some .outOfBoundsWrite ∧
      (backfillee_run (some desc) region store0 sid
        (pre ++ event_t.chunk c :: rest)).state = .aborted ∧
      (backfillee_run (some desc) region store0 sid
        (pre ++ event_t.chunk c :: rest)).outcome ≠ some .interrupted ∧
      (backfillee_run (some desc) region store0 sid
        (pre ++ event_t.chunk c :: rest)).outcome ≠ some .resourceLost ∧
      backfillee_run (some desc) region store0 sid
        (pre ++ event_t.chunk c :: rest) =
        backfillee_run (some desc) region store0 sid
          (pre ++ [event_t.chunk c])) := by
  constructor
  · intro hts
    have hstep : backfillee_step region
        (backfillee_run (some desc) region store0 sid pre)
        (event_t.chunk c) =
        { backfillee_run (some desc) region store0 sid pre with
            state := .aborted
            outcome := some .chunkOrderViolation } := by
      rw [step_not_terminal region _ _ hs]
      cases c with
      | endOfStream => exact absurd hts (by simp [chunk_ts_ok])
      | cancel => exact absurd hts (by simp [chunk_ts_ok])
      | dataChunk sub ents =>
        dsimp only
        rw [hts]
        simp
      | metaChunk sub b ts =>
        dsimp only
        rw [hts]
        simp
    obtain ⟨h1, h2⟩ := run_cons_abort desc region store0 sid pre rest
      (event_t.chunk c) _ hstep rfl
    rw [h1, h2]
    exact ⟨rfl, rfl, by simp, by simp, rfl⟩
  · intro hts hoob
    have hstep : backfillee_step region
        (backfillee_run (some desc) region store0 sid pre)
        (event_t.chunk c) =
        { backfillee_run (some desc) region store0 sid pre with
            state := .aborted
            outcome := some .outOfBoundsWrite } := by
      rw [step_not_terminal region _ _ hs]
      cases c with
      | endOfStream => exact apply_result_t.noConfusion hoob
      | cancel => exact apply_result_t.noConfusion hoob
      | dataChunk sub ents =>
        dsimp only
        rw [hoob]
        simp [hts]
      | metaChunk sub b ts =>
        dsimp only
        rw [hoob]
        simp [hts]
    obtain ⟨h1, h2⟩ := run_cons_abort desc region store0 sid pre rest
      (event_t.chunk c) _ hstep rfl
    rw [h1, h2]
    exact ⟨rfl, rfl, by simp, by simp, rfl⟩

/-- Witness for C4 at concrete sessions: one chunk-order violation and one
out-of-bounds write. -/
theorem backfillee_contract_violation_witness :
    ((backfillee_run (some test_card) [0] empty_store 0
        ([event_t.chunk (chunk_t.metaChunk [0] 1 5)] ++
          event_t.chunk (chunk_t.metaChunk [0] 1 3) :: [])).outcome =
        some .chunkOrderViolation ∧
      (backfillee_run (some test_card) [0] empty_store 0
        ([event_t.chunk (chunk_t.metaChunk [0] 1 5)] ++
          event_t.chunk (chunk_t.metaChunk [0] 1 3) :: [])).state =
        .aborted ∧
      (backfillee_run (some test_card) [0] empty_store 0
        ([event_t.chunk (chunk_t.metaChunk [0] 1 5)] ++
          event_t.chunk (chunk_t.metaChunk [0] 1 3) :: [])).outcome ≠
        some .interrupted ∧
      (backfillee_run (some test_card) [0] empty_store 0
        ([event_t.chunk (chunk_t.metaChunk [0] 1 5)] ++
          event_t.chunk (chunk_t.metaChunk [0] 1 3) :: [])).outcome ≠
        some .resourceLost ∧
      backfillee_run (some test_card) [0] empty_store 0
        ([event_t.chunk (chunk_t.metaChunk [0] 1 5)] ++
          event_t.chunk (chunk_t.metaChunk [0] 1 3) :: []) =
        backfillee_run (some test_card) [0] empty_store 0
          ([event_t.chunk (chunk_t.metaChunk [0] 1 5)] ++
            [event_t.chunk (chunk_t.metaChunk [0] 1 3)])) ∧
    ((backfillee_run (some test_card) [0] empty_store 0
        ([event_t.chunk (chunk_t.metaChunk [0] 1 5)] ++
          event_t.chunk (chunk_t.dataChunk [0] [(7, 1, 9)]) :: [])).outcome =
        some .outOfBoundsWrite ∧
      (backfillee_run (some test_card) [0] empty_store 0
        ([event_t.chunk (chunk_t.metaChunk [0] 1 5)] ++
          event_t.chunk (chunk_t.dataChunk [0] [(7, 1, 9)]) :: [])).state =
        .aborted ∧
      (backfillee_run (some test_card) [0] empty_store 0
        ([event_t.chunk (chunk_t.metaChunk [0] 1 5)] ++
          event_t.chunk (chunk_t.dataChunk [0] [(7, 1, 9)]) :: [])).outcome ≠
        some .interrupted ∧
      (backfillee_run (some test_card) [0] empty_store 0
        ([event_t.chunk (chunk_t.metaChunk [0] 1 5)] ++
          event_t.chunk (chunk_t.dataChunk [0] [(7, 1, 9)]) :: [])).outcome ≠
        some .resourceLost ∧
      backfillee_run (some test_card) [0] empty_store 0
        ([event_t.chunk (chunk_t.metaChunk [0] 1 5)] ++
          event_t.chunk (chunk_t.dataChunk [0] [(7, 1, 9)]) :: []) =
        backfillee_run (some test_card) [0] empty_store 0
          ([event_t.chunk (chunk_t.metaChunk [0] 1 5)] ++
            [event_t.chunk (chunk_t.dataChunk [0] [(7, 1, 9)])])) :=
  ⟨(backfillee_contract_violation test_card [0] empty_store 0
      [event_t.chunk (chunk_t.metaChunk [0] 1 5)] []
      (chunk_t.metaChunk [0] 1 3) rfl).1 (by decide),
   (backfillee_contract_violation test_card [0] empty_store 0
      [event_t.chunk (chunk_t.metaChunk [0] 1 5)] []
      (chunk_t.dataChunk [0] [(7, 1, 9)]) rfl).2 (by decide) rfl⟩

/-- C7: last-writer-wins by timestamp: for a foreground write of value v2 at
timestamp T2 and a backfill data-chunk write of value v1 at timestamp
T1 < T2 to the same key (whose prior stored timestamp, if any, predates
both), either interleaving leaves the key at T2's value: applying the chunk
first and the foreground write second ends at (v2, T2), and applying the
chunk after the foreground write is detected as a timestamp regression by
apply_chunk and skipped, leaving the store exactly as the foreground write
left it.  (spec-modelled: the store view is not in src, modelled from spec
sections 4.2, 5 and 8.) -/
theorem apply_chunk_ordering_safety (st : store_view_t)
    (region sub : Region) (k : Key) (v1 v2 : Value) (T1 T2 : Timestamp)
    (hk : k ∈ region) (h12 : T1 < T2)
    (h0 : ∀ v0 t0, st.data k = some (v0, t0) → t0 < T1) :
    (∃ st1, apply_chunk region st (chunk_t.dataChunk sub [(k, v1, T1)]) =
        .ok st1 ∧
      (point_write st1 k v2 T2).data k = some (v2, T2)) ∧
    (∃ st2, apply_chunk region (point_write st k v2 T2)
        (chunk_t.dataChunk sub [(k, v1, T1)]) = .ok st2 ∧
      st2.data k = some (v2, T2) ∧ st2 = point_write st k v2 T2) := by
  have hfg : (point_write st k v2 T2).data k = some (v2, T2) := by
    cases hc : st.data k with
    | none => simp [point_write, hc]
    | some p =>
      obtain ⟨v0, t0⟩ := p
      have ht2 : t0 < T2 := lt_trans (h0 v0 t0 hc) h12
      simp [point_write, hc, ht2]
  constructor
  · refine ⟨write_entries st [(k, v1, T1)], ?_, ?_⟩
    · simp [apply_chunk, hk]
    · have hbk : (write_entries st [(k, v1, T1)]).data k = some (v1, T1) := by
        show (point_write st k v1 T1).data k = some (v1, T1)
        cases hc : st.data k with
        | none => simp [point_write, hc]
        | some p =>
          obtain ⟨v0, t0⟩ := p
          simp [point_write, hc, h0 v0 t0 hc]
      have hgen : ∀ st3 : store_view_t, st3.data k = some (v1, T1) →
          (point_write st3 k v2 T2).data k = some (v2, T2) := by
        intro st3 h3
        unfold point_write
        rw [h3]
        dsimp only
        rw [if_pos h12]
        simp
      exact hgen _ hbk
  · have hskip : ∀ fg : store_view_t, fg.data k = some (v2, T2) →
        point_write fg k v1 T1 = fg := by
      intro fg hfgd
      unfold point_write
      rw [hfgd]
      dsimp only
      rw [if_neg (Nat.not_lt.mpr (Nat.le_of_lt h12))]
    refine ⟨point_write st k v2 T2, ?_, hfg, rfl⟩
    have hwr : write_entries (point_write st k v2 T2) [(k, v1, T1)] =
        point_write st k v2 T2 := hskip _ hfg
    rw [show apply_chunk region (point_write st k v2 T2)
        (chunk_t.dataChunk sub [(k, v1, T1)]) =
        (if ([(k, v1, T1)].all fun e => decide (e.1 ∈ region)) = true then
          .ok (write_entries (point_write st k v2 T2) [(k, v1, T1)])
        else .outOfBounds) from rfl]
    simp [hk, hwr]

/-- Witness for C7 at a concrete store and pair of writes. -/
theorem apply_chunk_ordering_safety_witness :
    (∃ st1, apply_chunk [0] empty_store (chunk_t.dataChunk [0] [(0, 1, 1)]) =
        .ok st1 ∧
      (point_write st1 0 2 2).data 0 = some (2, 2)) ∧
    (∃ st2, apply_chunk [0] (point_write empty_store 0 2 2)
        (chunk_t.dataChunk [0] [(0, 1, 1)]) = .ok st2 ∧
      st2.data 0 = some (2, 2) ∧ st2 = point_write empty_store 0 2 2) :=
  apply_chunk_ordering_safety empty_store [0] [0] 0 1 2 1 2 (by decide)
    (by decide) (fun v0 t0 h => Option.noConfusion h)

/-- C8: idempotence under retry: when every sub-region of the requested
region is already caught up — the version the backfillee reports for it is
one of which the backfiller's branch is an ancestor-or-equal, i.e. the
backfillee's branch equals or descends from the backfiller's — the diff is
empty, the stream is just the Finished end-of-stream marker with zero data
chunks, the session finalizes leaving the store exactly as it was, and
running the backfill twice leaves the store identical to running it once.
(spec-modelled: the backfiller responder is not in src, modelled from spec
sections 4.1, 4.3 and 8.) -/
theorem backfill_idempotent (bh : branch_history_t) (fuel : Nat)
    (entries : List backfiller_entry_t)
    (dataOf : Region → List (Key × Value × Timestamp))
    (desc : backfiller_business_card_t) (region : Region)
    (store0 : store_view_t) (sid sid2 : Nat)
    (hcu : ∀ e ∈ entries, ∃ pb pts,
      reported_version store0.metainfo e.sub = some (pb, pts) ∧
      is_ancestor bh fuel e.branch pb = true) :
    compute_diff bh fuel entries store0.metainfo = [] ∧
    make_stream (compute_diff bh fuel entries store0.metainfo) dataOf =
      [chunk_t.endOfStream] ∧
    (backfill_session bh fuel entries dataOf (some desc) region store0
      sid).state = .finalized ∧
    (backfill_session bh fuel entries dataOf (some desc) region store0
      sid).outcome = some .finished ∧
    (backfill_session bh fuel entries dataOf (some desc) region store0
      sid).store = store0 ∧
    (backfill_session bh fuel entries dataOf (some desc) region
        (backfill_session bh fuel entries dataOf (some desc) region store0
          sid).store sid2).store =
      (backfill_session bh fuel entries dataOf (some desc) region store0
        sid).store := by
  have hdiff : compute_diff bh fuel entries store0.metainfo = [] := by
    unfold compute_diff
    rw [List.filter_eq_nil_iff]
    intro e he
    obtain ⟨pb, pts, hrep, hanc⟩ := hcu e he
    simp [needs_transfer, hrep, hanc]
  have hrun : ∀ sidx : Nat,
      backfill_session bh fuel entries dataOf (some desc) region store0
        sidx =
      { session_id := sidx, store := store0, lastTs := fun _ => none,
        state := .finalized, outcome := some .finished } := by
    intro sidx
    unfold backfill_session
    rw [hdiff]
    rfl
  refine ⟨hdiff, ?_, ?_, ?_, ?_, ?_⟩
  · rw [hdiff]
    rfl
  · rw [hrun sid]
  · rw [hrun sid]
  · rw [hrun sid]
  · rw [hrun sid]
    show (backfill_session bh fuel entries dataOf (some desc) region store0
      sid2).store = store0
    rw [hrun sid2]

/-- Witness for C8 at a caught-up concrete store. -/
theorem backfill_idempotent_witness :
    compute_diff test_bh 2 test_entries caught_up_store.metainfo = [] ∧
    make_stream (compute_diff test_bh 2 test_entries
      caught_up_store.metainfo) test_dataOf = [chunk_t.endOfStream] ∧
    (backfill_session test_bh 2 test_entries test_dataOf (some test_card)
      [0, 1] caught_up_store 0).state = .finalized ∧
    (backfill_session test_bh 2 test_entries test_dataOf (some test_card)
      [0, 1] caught_up_store 0).outcome = some .finished ∧
    (backfill_session test_bh 2 test_entries test_dataOf (some test_card)
      [0, 1] caught_up_store 0).store = caught_up_store ∧
    (backfill_session test_bh 2 test_entries test_dataOf (some test_card)
        [0, 1] (backfill_session test_bh 2 test_entries test_dataOf
          (some test_card) [0, 1] caught_up_store 0).store 1).store =
      (backfill_session test_bh 2 test_entries test_dataOf (some test_card)
        [0, 1] caught_up_store 0).store :=
  backfill_idempotent test_bh 2 test_entries test_dataOf test_card [0, 1]
    caught_up_store 0 1
    (by
      intro e he
      simp only [test_entries, List.mem_singleton] at he
      subst he
      exact ⟨2, 7, rfl, rfl⟩)

/-- C1: completeness: for a valid session (backfiller metainfo entries lie
inside and cover the requested region, are pairwise disjoint, and each data
payload stays inside its entry's sub-region with timestamps bounded by the
entry's timestamp), once the end-of-stream marker is consumed the session is
Finalized and every key of the region carries a metainfo entry — no gaps —
whose branch is, for the (unique) backfiller entry holding the key, either
the backfiller's branch itself (transferred sub-region) or a branch of
which the backfiller's branch at session start is an ancestor-or-equal,
that is a branch equal to or descending from it (skipped sub-region).
(spec-modelled: the orchestrator, responder and store view are not in src,
modelled from spec sections 4.1 to 4.4 and 8.) -/
theorem backfillee_completeness (bh : branch_history_t) (fuel : Nat)
    (entries : List backfiller_entry_t)
    (dataOf : Region → List (Key × Value × Timestamp))
    (desc : backfiller_business_card_t) (region : Region)
    (store0 : store_view_t) (sid : Nat)
    (hfuel : 0 < fuel)
    (hreg : ∀ e ∈ entries, ∀ k ∈ e.sub, k ∈ region)
    (hcov : ∀ k ∈ region, ∃ e, e ∈ entries ∧ k ∈ e.sub)
    (hdata : ∀ e ∈ entries, ∀ en ∈ dataOf e.sub, en.1 ∈ e.sub)
    (hts : ∀ e ∈ entries, ∀ en ∈ dataOf e.sub, en.2.2 ≤ e.ts)
    (hdisj : entries_disjoint entries) :
    (backfill_session bh fuel entries dataOf (some desc) region store0
      sid).state = .finalized ∧
    (backfill_session bh fuel entries dataOf (some desc) region store0
      sid).outcome = some .finished ∧
    ∀ k ∈ region, ∃ b ts2,
      (backfill_session bh fuel entries dataOf (some desc) region store0
        sid).store.metainfo k = some (b, ts2) ∧
      ∀ e, e ∈ entries → k ∈ e.sub →
        is_ancestor bh fuel e.branch b = true := by
  have hddef : compute_diff bh fuel entries store0.metainfo =
      entries.filter (fun e => needs_transfer bh fuel e.branch
        (reported_version store0.metainfo e.sub)) := rfl
  have hdmem : ∀ e, e ∈ compute_diff bh fuel entries store0.metainfo →
      e ∈ entries := by
    intro e he
    rw [hddef] at he
    exact (List.mem_filter.mp he).1
  have hdp : ∀ e, e ∈ compute_diff bh fuel entries store0.metainfo →
      needs_transfer bh fuel e.branch
        (reported_version store0.metainfo e.sub) = true := by
    intro e he
    rw [hddef] at he
    exact (List.mem_filter.mp he).2
  have hdin : ∀ e, e ∈ entries →
      needs_transfer bh fuel e.branch
        (reported_version store0.metainfo e.sub) = true →
      e ∈ compute_diff bh fuel entries store0.metainfo := by
    intro e he hp
    rw [hddef]
    exact List.mem_filter.mpr ⟨he, hp⟩
  have hdisjd : entries_disjoint
      (compute_diff bh fuel entries store0.metainfo) :=
    List.Pairwise.sublist (List.filter_sublist entries) hdisj
  obtain ⟨hg1, hg2, hg3, hg4⟩ := run_groups region dataOf
    (compute_diff bh fuel entries store0.metainfo)
    { session_id := sid, store := store0, lastTs := fun _ => none, state := .streaming, outcome := none }
    rfl
    (fun e he => hreg e (hdmem e he))
    (fun e he => hdata e (hdmem e he))
    (fun e he => hts e (hdmem e he))
    hdisjd
    (fun k _ => rfl)
  have hfin : backfill_session bh fuel entries dataOf (some desc) region
      store0 sid =
      { run_chunks region
          { session_id := sid, store := store0, lastTs := fun _ => none, state := .streaming, outcome := none }
          (((compute_diff bh fuel entries store0.metainfo).map
            (entry_chunks dataOf)).flatten) with
        state := .finalized
        outcome := some .finished } := by
    unfold backfill_session
    rw [(show (make_stream (compute_diff bh fuel entries store0.metainfo)
        dataOf).map event_t.chunk =
        ((((compute_diff bh fuel entries store0.metainfo).map
          (entry_chunks dataOf)).flatten).map event_t.chunk) ++
          [event_t.chunk chunk_t.endOfStream] by simp [make_stream])]
    rw [backfillee_run_append]
    rw [(show backfillee_run (some desc) region store0 sid
        ((((compute_diff bh fuel entries store0.metainfo).map
          (entry_chunks dataOf)).flatten).map event_t.chunk) =
        run_chunks region
          { session_id := sid, store := store0, lastTs := fun _ => none, state := .streaming, outcome := none }
          (((compute_diff bh fuel entries store0.metainfo).map
            (entry_chunks dataOf)).flatten) from rfl)]
    rw [List.foldl_cons, List.foldl_nil, step_not_terminal region _ _ hg1]
  rw [hfin]
  refine ⟨rfl, rfl, ?_⟩
  intro k hkreg
  obtain ⟨e, he, hke⟩ := hcov k hkreg
  by_cases hp : needs_transfer bh fuel e.branch
      (reported_version store0.metainfo e.sub) = true
  · have hed := hdin e he hp
    refine ⟨e.branch, e.ts, hg3 e hed k hke, ?_⟩
    intro e2 he2 hke2
    rw [entries_disjoint_unique entries hdisj e2 e he2 he k hke2 hke]
    exact is_ancestor_refl bh fuel hfuel e.branch
  · have hpf : needs_transfer bh fuel e.branch
        (reported_version store0.metainfo e.sub) = false := by
      cases hb : needs_transfer bh fuel e.branch
          (reported_version store0.metainfo e.sub) with
      | false => rfl
      | true => exact absurd hb hp
    obtain ⟨pb, pts, hrep, hanc⟩ :=
      needs_transfer_false bh fuel e.branch _ hpf
    have hnotin : ¬ in_subs (compute_diff bh fuel entries store0.metainfo)
        k := by
      rintro ⟨e2, he2, hke2⟩
      have he2e := hdmem e2 he2
      have heq : e2 = e :=
        entries_disjoint_unique entries hdisj e2 e he2e he k hke2 hke
      have hp2 := hdp e2 he2
      rw [heq] at hp2
      exact hp hp2
    refine ⟨pb, pts, ?_, ?_⟩
    · exact ((hg4 k hnotin).2.1).trans
        (reported_version_eq store0.metainfo e.sub pb pts hrep k hke)
    · intro e2 he2 hke2
      rw [entries_disjoint_unique entries hdisj e2 e he2 he k hke2 hke]
      exact hanc

/-- Witness for C1: the spec's concrete scenario shape — an empty backfillee
receives one data chunk and one metainfo chunk for the whole region, then
the end-of-stream marker. -/
theorem backfillee_completeness_witness :
    (backfill_session test_bh 1 test_entries test_dataOf (some test_card)
      [0, 1] empty_store 0).state = .finalized ∧
    (backfill_session test_bh 1 test_entries test_dataOf (some test_card)
      [0, 1] empty_store 0).outcome = some .finished ∧
    ∀ k ∈ ([0, 1] : Region), ∃ b ts2,
      (backfill_session test_bh 1 test_entries test_dataOf (some test_card)
        [0, 1] empty_store 0).store.metainfo k = some (b, ts2) ∧
      ∀ e, e ∈ test_entries → k ∈ e.sub →
        is_ancestor test_bh 1 e.branch b = true :=
  backfillee_completeness test_bh 1 test_entries test_dataOf test_card
    [0, 1] empty_store 0 (by decide) (by decide) (by decide) (by decide)
    (by decide) (by simp [entries_disjoint, test_entries])

/-- C3: cancellation consistency: observing the interruptor at any chunk
boundary (after the first m diff-entry chunk groups, optionally plus the
pending entry's value chunk when mid is set) aborts the session with the
Interrupted outcome and leaves the store self-consistent: the result store
is exactly the transactional application of the chunks before the boundary
(no torn chunk), every fully-applied sub-region has its metainfo advanced
to its entry's branch and timestamp, every sub-region not yet transferred —
including all skipped, already-current sub-regions — keeps its prior data
and metainfo, and a half-applied sub-region's metainfo has not advanced.
(spec-modelled: the orchestrator and store view are not in src, modelled
from spec sections 4.2, 4.4, 7 and 8.) -/
theorem backfillee_cancellation (bh : branch_history_t) (fuel : Nat)
    (entries : List backfiller_entry_t)
    (dataOf : Region → List (Key × Value × Timestamp))
    (desc : backfiller_business_card_t) (region : Region)
    (store0 : store_view_t) (sid m : Nat) (mid : Bool)
    (rest : List event_t)
    (hreg : ∀ e ∈ entries, ∀ k ∈ e.sub, k ∈ region)
    (hdata : ∀ e ∈ entries, ∀ en ∈ dataOf e.sub, en.1 ∈ e.sub)
    (hts : ∀ e ∈ entries, ∀ en ∈ dataOf e.sub, en.2.2 ≤ e.ts)
    (hdisj : entries_disjoint entries) :
    (interrupted_session bh fuel entries dataOf (some desc) region store0 sid m mid rest).outcome = some .interrupted ∧
    (interrupted_session bh fuel entries dataOf (some desc) region store0 sid m mid rest).state = .aborted ∧
    (interrupted_session bh fuel entries dataOf (some desc) region store0 sid m mid rest).store = (backfillee_run (some desc) region store0 sid ((prefix_chunks dataOf (compute_diff bh fuel entries store0.metainfo) m mid).map event_t.chunk)).store ∧
    (∀ e ∈ (compute_diff bh fuel entries store0.metainfo).take m, ∀ k ∈ e.sub,
      (interrupted_session bh fuel entries dataOf (some desc) region store0 sid m mid rest).store.metainfo k = some (e.branch, e.ts)) ∧
    (∀ e ∈ (compute_diff bh fuel entries store0.metainfo).drop (m + (if mid then 1 else 0)), ∀ k ∈ e.sub,
      (interrupted_session bh fuel entries dataOf (some desc) region store0 sid m mid rest).store.data k = store0.data k ∧
      (interrupted_session bh fuel entries dataOf (some desc) region store0 sid m mid rest).store.metainfo k = store0.metainfo k) ∧
    (mid = true → ∀ e ∈ ((compute_diff bh fuel entries store0.metainfo).drop m).take 1, ∀ k ∈ e.sub,
      (interrupted_session bh fuel entries dataOf (some desc) region store0 sid m mid rest).store.metainfo k = store0.metainfo k) ∧
    (∀ e ∈ entries,
      needs_transfer bh fuel e.branch
        (reported_version store0.metainfo e.sub) = false →
      ∀ k ∈ e.sub,
      (interrupted_session bh fuel entries dataOf (some desc) region store0 sid m mid rest).store.data k = store0.data k ∧
      (interrupted_session bh fuel entries dataOf (some desc) region store0 sid m mid rest).store.metainfo k = store0.metainfo k) := by
  have hddef : (compute_diff bh fuel entries store0.metainfo) =
      entries.filter (fun e => needs_transfer bh fuel e.branch
        (reported_version store0.metainfo e.sub)) := rfl
  have hdmem : ∀ e, e ∈ (compute_diff bh fuel entries store0.metainfo) → e ∈ entries := by
    intro e he
    rw [hddef] at he
    exact (List.mem_filter.mp he).1
  have hdp : ∀ e, e ∈ (compute_diff bh fuel entries store0.metainfo) →
      needs_transfer bh fuel e.branch
        (reported_version store0.metainfo e.sub) = true := by
    intro e he
    rw [hddef] at he
    exact (List.mem_filter.mp he).2
  have hdisjD : entries_disjoint (compute_diff bh fuel entries store0.metainfo) :=
    List.Pairwise.sublist (List.filter_sublist entries) hdisj
  have htakemem : ∀ e ∈ (compute_diff bh fuel entries store0.metainfo).take m, e ∈ entries :=
    fun e he => hdmem e (List.take_subset m (compute_diff bh fuel entries store0.metainfo) he)
  have hdisj_take : entries_disjoint ((compute_diff bh fuel entries store0.metainfo).take m) :=
    List.Pairwise.sublist (List.take_sublist m (compute_diff bh fuel entries store0.metainfo)) hdisjD
  obtain ⟨hgA1, hgA2, hgA3, hgA4⟩ := run_groups region dataOf ((compute_diff bh fuel entries store0.metainfo).take m)
    { session_id := sid, store := store0, lastTs := fun _ => none, state := .streaming, outcome := none }
    rfl
    (fun e he => hreg e (htakemem e he))
    (fun e he => hdata e (htakemem e he))
    (fun e he => hts e (htakemem e he))
    hdisj_take (fun k _ => rfl)
  have hcross : ∀ a ∈ (compute_diff bh fuel entries store0.metainfo).take m, ∀ b ∈ (compute_diff bh fuel entries store0.metainfo).drop m, entry_disjoint a b :=
    (List.pairwise_append.mp
      ((List.take_append_drop m (compute_diff bh fuel entries store0.metainfo)).symm ▸ hdisjD)).2.2
  have hnotin_take : ∀ b ∈ (compute_diff bh fuel entries store0.metainfo).drop m, ∀ k ∈ b.sub,
      ¬ in_subs ((compute_diff bh fuel entries store0.metainfo).take m) k := by
    intro b hb k hk
    rintro ⟨a, ha, hka⟩
    exact hcross a ha b hb k hka hk
  have hfreshB : ∀ e ∈ (compute_diff bh fuel entries store0.metainfo).drop m, ∀ k ∈ e.sub,
      (run_chunks region
      { session_id := sid, store := store0, lastTs := fun _ => none, state := .streaming, outcome := none }
      ((((compute_diff bh fuel entries store0.metainfo).take m).map (entry_chunks dataOf)).flatten)).lastTs k = none := by
    intro e he k hk
    exact (hgA4 k (hnotin_take e he k hk)).2.2
  obtain ⟨hB1, hB2, hB3, hB4⟩ := run_mid_chunks region dataOf (compute_diff bh fuel entries store0.metainfo) m mid
    (run_chunks region
      { session_id := sid, store := store0, lastTs := fun _ => none, state := .streaming, outcome := none }
      ((((compute_diff bh fuel entries store0.metainfo).take m).map (entry_chunks dataOf)).flatten))
    hgA1 (fun e he => hreg e (hdmem e he)) (fun e he => hdata e (hdmem e he))
    hfreshB
  have hPdef : backfillee_run (some desc) region store0 sid ((prefix_chunks dataOf (compute_diff bh fuel entries store0.metainfo) m mid).map event_t.chunk) =
      run_chunks region
      (run_chunks region
      { session_id := sid, store := store0, lastTs := fun _ => none, state := .streaming, outcome := none }
      ((((compute_diff bh fuel entries store0.metainfo).take m).map (entry_chunks dataOf)).flatten))
      (mid_chunks dataOf (compute_diff bh fuel entries store0.metainfo) m mid) := by
    rw [(show backfillee_run (some desc) region store0 sid ((prefix_chunks dataOf (compute_diff bh fuel entries store0.metainfo) m mid).map event_t.chunk) =
        run_chunks region
          { session_id := sid, store := store0, lastTs := fun _ => none, state := .streaming, outcome := none }
          (prefix_chunks dataOf (compute_diff bh fuel entries store0.metainfo) m mid) from rfl)]
    rw [(show prefix_chunks dataOf (compute_diff bh fuel entries store0.metainfo) m mid =
        (((compute_diff bh fuel entries store0.metainfo).take m).map (entry_chunks dataOf)).flatten ++
          mid_chunks dataOf (compute_diff bh fuel entries store0.metainfo) m mid from rfl)]
    rw [run_chunks_append]
  have hRdef : interrupted_session bh fuel entries dataOf (some desc) region store0 sid m mid rest =
      { run_chunks region
      (run_chunks region
      { session_id := sid, store := store0, lastTs := fun _ => none, state := .streaming, outcome := none }
      ((((compute_diff bh fuel entries store0.metainfo).take m).map (entry_chunks dataOf)).flatten))
      (mid_chunks dataOf (compute_diff bh fuel entries store0.metainfo) m mid) with
          state := .aborted
          outcome := some .interrupted } := by
    unfold interrupted_session
    rw [backfillee_run_append, hPdef, List.foldl_cons,
      step_not_terminal region _ _ hB1]
    dsimp only
    exact foldl_step_terminal region rest _ rfl
  rw [hRdef, hPdef]
  refine ⟨rfl, rfl, rfl, ?_, ?_, ?_, ?_⟩
  · intro e he k hk
    exact (congrFun hB3 k).trans (hgA3 e he k hk)
  · intro e he k hk
    have hedrop : e ∈ (compute_diff bh fuel entries store0.metainfo).drop m := by
      cases mid with
      | false => simpa using he
      | true =>
        have he2 : e ∈ (compute_diff bh fuel entries store0.metainfo).drop (m + 1) := by simpa using he
        have hdd : (compute_diff bh fuel entries store0.metainfo).drop (m + 1) = ((compute_diff bh fuel entries store0.metainfo).drop m).drop 1 := by
          rw [List.drop_drop]
        rw [hdd] at he2
        exact List.drop_subset 1 ((compute_diff bh fuel entries store0.metainfo).drop m) he2
    have hmidk : mid = true →
        ∀ x ∈ ((compute_diff bh fuel entries store0.metainfo).drop m).take 1, k ∉ x.sub := by
      intro hm x hx hkx
      subst hm
      cases hdm : (compute_diff bh fuel entries store0.metainfo).drop m with
      | nil =>
        rw [hdm] at hx
        cases hx
      | cons e0 tl =>
        rw [hdm] at hx
        have hx0 : x = e0 := by simpa using hx
        have he2 : e ∈ (compute_diff bh fuel entries store0.metainfo).drop (m + 1) := by simpa using he
        have hdd : (compute_diff bh fuel entries store0.metainfo).drop (m + 1) = ((compute_diff bh fuel entries store0.metainfo).drop m).drop 1 := by
          rw [List.drop_drop]
        have het : e ∈ tl := by
          rw [hdd, hdm] at he2
          simpa using he2
        have hpdrop : List.Pairwise entry_disjoint ((compute_diff bh fuel entries store0.metainfo).drop m) :=
          List.Pairwise.sublist (List.drop_sublist m (compute_diff bh fuel entries store0.metainfo)) hdisjD
        rw [hdm] at hpdrop
        exact (List.pairwise_cons.mp hpdrop).1 e het k (hx0 ▸ hkx) hk
    have hA := hgA4 k (hnotin_take e hedrop k hk)
    exact ⟨(hB4 k hmidk).trans hA.1, (congrFun hB3 k).trans hA.2.1⟩
  · intro hm e he k hk
    have hedrop : e ∈ (compute_diff bh fuel entries store0.metainfo).drop m := List.take_subset 1 ((compute_diff bh fuel entries store0.metainfo).drop m) he
    exact (congrFun hB3 k).trans
      ((hgA4 k (hnotin_take e hedrop k hk)).2.1)
  · intro e he hpf k hk
    have hnotinD : ¬ in_subs (compute_diff bh fuel entries store0.metainfo) k := by
      rintro ⟨e2, he2, hke2⟩
      have he2e := hdmem e2 he2
      have heq : e2 = e :=
        entries_disjoint_unique entries hdisj e2 e he2e he k hke2 hk
      have hp2 := hdp e2 he2
      rw [heq, hpf] at hp2
      cases hp2
    have hnt : ¬ in_subs ((compute_diff bh fuel entries store0.metainfo).take m) k := by
      rintro ⟨a, ha, hka⟩
      exact hnotinD ⟨a, List.take_subset m (compute_diff bh fuel entries store0.metainfo) ha, hka⟩
    have hmidk : mid = true →
        ∀ x ∈ ((compute_diff bh fuel entries store0.metainfo).drop m).take 1, k ∉ x.sub := by
      intro hm x hx hkx
      exact hnotinD
        ⟨x, List.drop_subset m (compute_diff bh fuel entries store0.metainfo) (List.take_subset 1 ((compute_diff bh fuel entries store0.metainfo).drop m) hx),
          hkx⟩
    have hA := hgA4 k hnt
    exact ⟨(hB4 k hmidk).trans hA.1, (congrFun hB3 k).trans hA.2.1⟩

/-- Witness for C3 at a concrete session interrupted after its only chunk
group. -/
theorem backfillee_cancellation_witness :
    (interrupted_session test_bh 1 test_entries test_dataOf (some test_card) [0, 1] empty_store 0 1 false []).outcome = some .interrupted ∧
    (interrupted_session test_bh 1 test_entries test_dataOf (some test_card) [0, 1] empty_store 0 1 false []).state = .aborted ∧
    (interrupted_session test_bh 1 test_entries test_dataOf (some test_card) [0, 1] empty_store 0 1 false []).store = (backfillee_run (some test_card) [0, 1] empty_store 0 ((prefix_chunks test_dataOf (compute_diff test_bh 1 test_entries empty_store.metainfo) 1 false).map event_t.chunk)).store ∧
    (∀ e ∈ (compute_diff test_bh 1 test_entries empty_store.metainfo).take 1, ∀ k ∈ e.sub,
      (interrupted_session test_bh 1 test_entries test_dataOf (some test_card) [0, 1] empty_store 0 1 false []).store.metainfo k = some (e.branch, e.ts)) ∧
    (∀ e ∈ (compute_diff test_bh 1 test_entries empty_store.metainfo).drop (1 + (if false then 1 else 0)), ∀ k ∈ e.sub,
      (interrupted_session test_bh 1 test_entries test_dataOf (some test_card) [0, 1] empty_store 0 1 false []).store.data k = empty_store.data k ∧
      (interrupted_session test_bh 1 test_entries test_dataOf (some test_card) [0, 1] empty_store 0 1 false []).store.metainfo k = empty_store.metainfo k) ∧
    (false = true → ∀ e ∈ ((compute_diff test_bh 1 test_entries empty_store.metainfo).drop 1).take 1, ∀ k ∈ e.sub,
      (interrupted_session test_bh 1 test_entries test_dataOf (some test_card) [0, 1] empty_store 0 1 false []).store.metainfo k = empty_store.metainfo k) ∧
    (∀ e ∈ test_entries,
      needs_transfer test_bh 1 e.branch
        (reported_version empty_store.metainfo e.sub) = false →
      ∀ k ∈ e.sub,
      (interrupted_session test_bh 1 test_entries test_dataOf (some test_card) [0, 1] empty_store 0 1 false []).store.data k = empty_store.data k ∧
      (interrupted_session test_bh 1 test_entries test_dataOf (some test_card) [0, 1] empty_store 0 1 false []).store.metainfo k = empty_store.metainfo k) :=
  backfillee_cancellation test_bh 1 test_entries test_dataOf test_card
    [0, 1] empty_store 0 1 false [] (by decide) (by decide) (by decide)
    (by simp [entries_disjoint, test_entries])

end RethinkDB
